import Mathlib

/-!
Verification of the AccessPlus banking-assistant guardrail pipeline.

This development gives a shallow embedding, over `List Char`, of the pure
decision core of the repository:

* `brain.py`: `sanitize_user_input`, `detect_prompt_injection`,
  `redact_sensitive_info`, `post_process_response`, `supervisor_node`,
  `call_account` / `call_info`, and the dispatch graph wiring;
* `app.py`: the `POST /chat` endpoint body (`chat_endpoint`);
* `tools.py`: `get_my_transactions`.

External effects are modelled as explicit oracle parameters: the LLM router
call is an `Except` value (an exception or the returned text), the two agent
invocations are functions from the message list to the draft reply, the
transactions file is an `Option` list of rows (`none` = file missing).
Booleans recording whether the classifier / graph branch was entered are
added to the results so that non-invocation claims are statable.

Text is modelled at the Unicode-codepoint level (`Char`), matching Python
`str` indexing.  Case mapping (`pyLower`/`pyUpper`) is the ASCII mapping;
every pattern, keyword and destination literal in the source is ASCII, so
this agrees with Python's `str.lower`/`str.upper` wherever the source
compares text.  Python's regular expressions are embedded by their match
semantics on these patterns: the two alternation-plus-gap patterns
(`ignore (previous|above).*instructions` style and
`expose.*credentials`) become scans with a newline-blocking gap, literal
patterns become substring tests, and `PII_RE` substitution becomes an
explicit leftmost scan (`redactScanF`).
-/

/-! ## Python string helpers -/

/-- Codepoints for which Python `str.isspace` holds (the set used by
`str.strip` with no argument). -/
def pySpaceCodes : List Nat :=
  [9, 10, 11, 12, 13, 28, 29, 30, 31, 32, 133, 160, 5760,
   8192, 8193, 8194, 8195, 8196, 8197, 8198, 8199, 8200, 8201, 8202,
   8232, 8233, 8239, 8287, 12288]

/-- Python `str.isspace` on a single character. -/
def pyIsSpace (c : Char) : Bool := pySpaceCodes.contains c.toNat

/-- Python `str.strip()`: drop leading and trailing whitespace. -/
def pyStrip (l : List Char) : List Char :=
  ((l.dropWhile pyIsSpace).reverse.dropWhile pyIsSpace).reverse

/-- ASCII lower-casing of one character (Python `str.lower` restricted to
ASCII; all case-insensitive comparisons in the source involve ASCII-only
patterns). -/
def pyLower (c : Char) : Char :=
  match c with
  | 'A' => 'a' | 'B' => 'b' | 'C' => 'c' | 'D' => 'd' | 'E' => 'e'
  | 'F' => 'f' | 'G' => 'g' | 'H' => 'h' | 'I' => 'i' | 'J' => 'j'
  | 'K' => 'k' | 'L' => 'l' | 'M' => 'm' | 'N' => 'n' | 'O' => 'o'
  | 'P' => 'p' | 'Q' => 'q' | 'R' => 'r' | 'S' => 's' | 'T' => 't'
  | 'U' => 'u' | 'V' => 'v' | 'W' => 'w' | 'X' => 'x' | 'Y' => 'y'
  | 'Z' => 'z'
  | c => c

/-- ASCII upper-casing of one character (Python `str.upper` on ASCII). -/
def pyUpper (c : Char) : Char :=
  match c with
  | 'a' => 'A' | 'b' => 'B' | 'c' => 'C' | 'd' => 'D' | 'e' => 'E'
  | 'f' => 'F' | 'g' => 'G' | 'h' => 'H' | 'i' => 'I' | 'j' => 'J'
  | 'k' => 'K' | 'l' => 'L' | 'm' => 'M' | 'n' => 'N' | 'o' => 'O'
  | 'p' => 'P' | 'q' => 'Q' | 'r' => 'R' | 's' => 'S' | 't' => 'T'
  | 'u' => 'U' | 'v' => 'V' | 'w' => 'W' | 'x' => 'X' | 'y' => 'Y'
  | 'z' => 'Z'
  | c => c

/-- Python `text.lower()`. -/
def lowerL (l : List Char) : List Char := l.map pyLower

/-- Python `text.upper()`. -/
def upperL (l : List Char) : List Char := l.map pyUpper

/-- `leadsWith pat l`: `l` starts with `pat` (Python `str.startswith`). -/
def leadsWith : List Char → List Char → Bool
  | [], _ => true
  | _ :: _, [] => false
  | a :: as, b :: bs => decide (a = b) && leadsWith as bs

/-- `containsSeq pat l`: `pat` occurs contiguously in `l`
(Python `pat in l`). -/
def containsSeq (pat : List Char) : List Char → Bool
  | [] => leadsWith pat []
  | c :: rest => leadsWith pat (c :: rest) || containsSeq pat rest

/-! ## brain.py: constants and pre-processing guardrails -/

/-- `MAX_INPUT_LEN` from `brain.py`. -/
def MAX_INPUT_LEN : Nat := 2000

/-- Membership in `CONTROL_CHAR_RE`, the class of control characters
removed by the sanitizer: codepoints 0..8, 11..12 and 14..31. -/
def isStrippedControl (c : Char) : Bool :=
  decide (c.toNat ≤ 8) || (decide (11 ≤ c.toNat) && decide (c.toNat ≤ 12)) ||
    (decide (14 ≤ c.toNat) && decide (c.toNat ≤ 31))

/-- `sanitize_user_input` from `brain.py`: `none` stands for a non-`str`
input (the `isinstance` guard); control characters are removed, the result
stripped and truncated to `MAX_INPUT_LEN` codepoints. -/
def sanitize_user_input : Option (List Char) → List Char
  | none => []
  | some text =>
    (pyStrip (text.filter (fun c => !isStrippedControl c))).take MAX_INPUT_LEN

/-- Scan for an occurrence of `post` with no intervening newline: the
semantics of a `.*post` tail in a Python regex, where `.` does not match
a newline. -/
def seekNoNL (post : List Char) : List Char → Bool
  | [] => false
  | c :: rest =>
    leadsWith post (c :: rest) || (decide (c ≠ '\n') && seekNoNL post rest)

/-- Scan for `pre` followed, after a newline-free gap, by `post`: the
match semantics of a pattern `pre.*post` under `re.search`. -/
def gapScan (pre post : List Char) : List Char → Bool
  | [] => false
  | c :: rest =>
    (leadsWith pre (c :: rest) && seekNoNL post ((c :: rest).drop pre.length)) ||
      gapScan pre post rest

/-- `detect_prompt_injection` from `brain.py`: the five
`INJECTION_PATTERNS`, with the `(previous|above)` and `(your|the)`
alternations expanded, searched case-insensitively. -/
def detect_prompt_injection (text : List Char) : Bool :=
  !text.isEmpty &&
    (gapScan ("ignore previous".toList) ("instructions".toList) (lowerL text) ||
     gapScan ("ignore above".toList) ("instructions".toList) (lowerL text) ||
     gapScan ("disregard previous".toList) ("instructions".toList) (lowerL text) ||
     gapScan ("disregard above".toList) ("instructions".toList) (lowerL text) ||
     containsSeq ("forget your instructions".toList) (lowerL text) ||
     containsSeq ("forget the instructions".toList) (lowerL text) ||
     containsSeq ("follow these new instructions".toList) (lowerL text) ||
     containsSeq ("<script>".toList) (lowerL text))

/-! ## brain.py: PII redaction -/

/-- Python word character (the `\w` class) on ASCII: letters, digits and
the underscore. -/
def isWordChar (c : Char) : Bool := c.isAlphanum || decide (c = '_')

/-- Digit or hyphen: the only characters a `PII_RE` match can contain. -/
def dhChar (c : Char) : Bool := c.isDigit || decide (c = '-')

/-- Length of the leading run of ASCII digits. -/
def digitRun : List Char → Nat
  | [] => 0
  | c :: rest => if c.isDigit then digitRun rest + 1 else 0

/-- The character after a candidate match must not be a word character
(the trailing word boundary of `PII_RE`). -/
def nonWordHead : List Char → Bool
  | [] => true
  | c :: _ => !isWordChar c

/-- The SSN-shaped alternative of `PII_RE` (3 digits, hyphen, 2 digits,
hyphen, 4 digits) followed by a word boundary. -/
def ssnShape : List Char → Bool
  | d1 :: d2 :: d3 :: h1 :: d4 :: d5 :: h2 :: d6 :: d7 :: d8 :: d9 :: rest =>
    d1.isDigit && d2.isDigit && d3.isDigit && decide (h1 = '-') &&
      d4.isDigit && d5.isDigit && decide (h2 = '-') &&
      d6.isDigit && d7.isDigit && d8.isDigit && d9.isDigit && nonWordHead rest
  | _ => false

/-- Length of the `PII_RE` match starting at the head of `l`, assuming the
leading word boundary already holds, or `none`.  The 12-to-19-digit
alternative matches exactly the whole leading digit run when that run has
length 12..19 and is followed by a non-word character (shorter greedy
attempts always backtrack onto a digit); the 9-digit alternative likewise
requires a run of exactly 9. -/
def matchPIIAt (l : List Char) : Option Nat :=
  let d := digitRun l
  if (decide (12 ≤ d) && decide (d ≤ 19)) && nonWordHead (l.drop d) then some d
  else if ssnShape l then some 11
  else if decide (d = 9) && nonWordHead (l.drop 9) then some 9
  else none

/-- The fixed redaction token of `redact_sensitive_info`. -/
def REDACT_TOKEN : List Char := "[REDACTED]".toList

/-- Fuelled left-to-right scan implementing the `PII_RE` substitution:
`prevW` records whether the previous character is a word character (for
the leading word boundary).  One unit of fuel is spent per step, and every
step consumes at least one character, so fuel `l.length` suffices. -/
def redactScanF : Nat → Bool → List Char → List Char
  | 0, _, l => l
  | _ + 1, _, [] => []
  | fuel + 1, prevW, c :: rest =>
    match (if prevW then none else matchPIIAt (c :: rest)) with
    | some n => REDACT_TOKEN ++ redactScanF fuel false ((c :: rest).drop n)
    | none => c :: redactScanF fuel (isWordChar c) rest

/-- `redact_sensitive_info` from `brain.py`. -/
def redact_sensitive_info (text : List Char) : List Char :=
  redactScanF text.length false text

/-- Relation between a text and a redaction of it: the text splits into
kept characters and non-empty all-digit-or-hyphen spans, each span
replaced by `REDACT_TOKEN`.  `redact_sensitive_info` produces a related
text (theorem `redactRel_redact` below). -/
inductive RedactRel : List Char → List Char → Prop where
  | nil : RedactRel [] []
  | keep (c : Char) {l r : List Char} : RedactRel l r → RedactRel (c :: l) (c :: r)
  | repl (s : List Char) {l r : List Char} : s ≠ [] → (∀ c ∈ s, dhChar c = true) →
      RedactRel l r → RedactRel (s ++ l) (REDACT_TOKEN ++ r)

/-- The word-character flag after scanning past `a` (the `prevW` argument
of `redactScanF`). -/
def prevAfter (p : Bool) (a : List Char) : Bool :=
  match a.getLast? with
  | none => p
  | some c => isWordChar c

/-! ## brain.py: output post-processing -/

/-- The `PROHIBITED_RESPONSE_PATTERNS` match, case-insensitive. -/
def prohibitedCheck (text : List Char) : Bool :=
  containsSeq ("open the database".toList) (lowerL text) ||
  containsSeq ("delete records".toList) (lowerL text) ||
  gapScan ("expose".toList) ("credentials".toList) (lowerL text)

/-- The fixed professional fallback returned by `post_process_response`
when a prohibited pattern matches. -/
def PROF_FALLBACK : List Char :=
  ("I'm unable to fulfill that request. Please choose one of the professional options:\n1. Contact human support\n2. Retry with a banking query\n3. View FAQs").toList

/-- `post_process_response` from `brain.py`: redact, then discard the
draft when a prohibited pattern matches the redacted text. -/
def post_process_response (response : List Char) : List Char :=
  let r := redact_sensitive_info response
  if prohibitedCheck r then PROF_FALLBACK else r

/-! ## brain.py: supervisor and dispatch graph -/

/-- Router destination `"ACCOUNT"`. -/
def ACCOUNT_DEST : List Char := "ACCOUNT".toList

/-- Router destination `"INFO"`. -/
def INFO_DEST : List Char := "INFO".toList

/-- `OFF_TOPIC_KEYWORDS` from `brain.py`. -/
def OFF_TOPIC_KEYWORDS : List (List Char) :=
  ["joke", "funny", "story", "meme", "laugh", "riddle",
   "travel", "passport", "vacation", "holiday", "flight", "visa",
   "recipe", "sports", "weather", "movie"].map String.toList

/-- The `account_keywords` list of `supervisor_node`. -/
def account_keywords : List (List Char) :=
  ["balance", "money", "spent", "spend", "transaction", "checking",
   "savings", "transfer", "pay", "deposit", "withdraw", "spendings"].map String.toList

/-- The fixed compliance fallback message built by `supervisor_node` on a
blocked input. -/
def fallback_block_msg : List Char :=
  ("I am a banking assistant and cannot answer off-topic or unsafe requests. Please choose one of the following professional options:\n1. Check account balance\n2. View transactions\n3. Ask about bank policies or fees\n4. Contact human support").toList

/-- Result of `supervisor_node`: the routing destination, the messages
appended to the state, and an instrumentation flag recording whether the
external LLM router branch was entered. -/
structure SupResult where
  next : List Char
  appended : List (List Char)
  calledClassifier : Bool
deriving DecidableEq

/-- `supervisor_node` from `brain.py`.  `classifier` is the external LLM
router oracle: `Except.error` models `llm.invoke` raising, `Except.ok t`
models it returning text `t`.  The `none` result models the `IndexError`
raised by taking the last element of an empty message list. -/
def supervisor_node (classifier : Except (List Char) (List Char))
    (messages : List (List Char)) : Option SupResult :=
  match messages.getLast? with
  | none => none
  | some last =>
    let user_input := sanitize_user_input (some last)
    if user_input = [] then some ⟨INFO_DEST, [], false⟩
    else if detect_prompt_injection user_input ||
        OFF_TOPIC_KEYWORDS.any (fun k => containsSeq k (lowerL user_input)) then
      some ⟨INFO_DEST, [fallback_block_msg], false⟩
    else if account_keywords.any (fun k => containsSeq k (lowerL user_input)) then
      some ⟨ACCOUNT_DEST, [], false⟩
    else
      let choice := match classifier with
        | .ok t => upperL (pyStrip t)
        | .error _ => INFO_DEST
      if containsSeq ACCOUNT_DEST choice then some ⟨ACCOUNT_DEST, [], true⟩
      else some ⟨INFO_DEST, [], true⟩

/-- `ACCOUNT_PROMPT` from `brain.py`. -/
def ACCOUNT_PROMPT : List Char :=
  ("You are a professional Banking Assistant in a DEMO environment.\nOnly use the tools get_my_balance and get_my_transactions.\nDo not provide any non-banking advice.\nAlways provide multi-step options if data is missing.").toList

/-- `INFO_PROMPT` from `brain.py`. -/
def INFO_PROMPT : List Char :=
  ("You are a professional Bank Consultant. Answer questions about fees, rates, and policies.\nDo not access user account information.\nNever answer non-banking requests.").toList

/-- `call_account` from `brain.py`: the agent oracle maps the
prompt-plus-history message list to the draft text of its final message;
the returned list is the messages appended to the state. -/
def call_account (agent : List (List Char) → List Char)
    (messages : List (List Char)) : List (List Char) :=
  [post_process_response (agent (ACCOUNT_PROMPT :: messages))]

/-- `call_info` from `brain.py`. -/
def call_info (agent : List (List Char) → List Char)
    (messages : List (List Char)) : List (List Char) :=
  [post_process_response (agent (INFO_PROMPT :: messages))]

/-- Nodes of the compiled `workflow` graph. -/
inductive GNode where
  | supervisor
  | account_bot
  | info_bot
  | END
deriving DecidableEq

/-- The `add_conditional_edges` mapping out of the supervisor node. -/
def conditional_edge_targets : List (List Char × GNode) :=
  [(ACCOUNT_DEST, GNode.account_bot), (INFO_DEST, GNode.info_bot)]

/-- The unconditional `add_edge` successors of the graph. -/
def node_successor : GNode → Option GNode
  | GNode.account_bot => some GNode.END
  | GNode.info_bot => some GNode.END
  | _ => none

/-- One full run of `app_graph.invoke`: the supervisor decision, the
handler node the conditional edge dispatched to, the text of the last
message of the final state, and the classifier-invocation flag. -/
structure GraphRun where
  next : List Char
  handlerNode : GNode
  final : List Char
  classifierCalled : Bool
deriving DecidableEq

/-- Execution of the compiled graph on one turn: supervisor, conditional
edge, one handler, `END`. -/
def run_app_graph (classifier : Except (List Char) (List Char))
    (accountAgent infoAgent : List (List Char) → List Char)
    (messages : List (List Char)) : Option GraphRun :=
  match supervisor_node classifier messages with
  | none => none
  | some res =>
    let msgs1 := messages ++ res.appended
    match conditional_edge_targets.lookup res.next with
    | some GNode.account_bot =>
      some ⟨res.next, GNode.account_bot,
        (msgs1 ++ call_account accountAgent msgs1).getLastD [], res.calledClassifier⟩
    | some GNode.info_bot =>
      some ⟨res.next, GNode.info_bot,
        (msgs1 ++ call_info infoAgent msgs1).getLastD [], res.calledClassifier⟩
    | _ => none

/-! ## tools.py: transaction lookup -/

/-- A row of `data/transactions.csv`. -/
structure TxnRow where
  user_id : String
  date : String
  merchant : String
  amount : String

/-- The hard-coded demo user of `tools.py`. -/
def demo_user : String := "user_101"

/-- The f-string formatting of one transaction row. -/
def fmtTxn (r : TxnRow) : String :=
  r.date ++ ": " ++ r.merchant ++ " ($" ++ r.amount ++ ")"

/-- Python `txns[-5:]`. -/
def lastFive (l : List String) : List String := l.drop (l.length - 5)

/-- `get_my_transactions` from `tools.py`: `none` models
`FileNotFoundError` on the transactions file; `some rows` is the parsed
CSV content in file order. -/
def get_my_transactions (file : Option (List TxnRow)) : List String :=
  match file with
  | none => ["Error: data/transactions.csv not found"]
  | some rows =>
    let txns := rows.foldl
      (fun acc r => if r.user_id = demo_user then acc ++ [fmtTxn r] else acc) []
    lastFive txns

/-! ## app.py: the POST /chat endpoint -/

/-- JSON values appearing in the chat endpoint bodies. -/
inductive JVal where
  | str : List Char → JVal
  | options : List (List Char × List Char) → JVal
  | null
deriving DecidableEq

/-- One node of the CSV-driven `FLOW_TREE`. -/
structure FlowNode where
  message : List Char
  options : List (List Char × List Char)

/-- JSON key `"response"`. -/
def KEY_RESPONSE : List Char := "response".toList

/-- JSON key `"options"`. -/
def KEY_OPTIONS : List Char := "options".toList

/-- JSON key `"next_step"`. -/
def KEY_NEXT : List Char := "next_step".toList

/-- JSON key `"error"` (named by the specification; the endpoint never
emits it). -/
def KEY_ERROR : List Char := "error".toList

/-- The fixed empty-message retry prompt of `chat_endpoint`. -/
def RETRY_MSG : List Char := "I didn't catch that. Could you type it again?".toList

/-- The fixed generic failure message of the outermost handler. -/
def GENERIC_ERR_MSG : List Char :=
  "System Error: The banking assistant is currently unavailable.".toList

/-- The fixed message used when the graph returns no messages. -/
def EMPTY_RESULT_MSG : List Char :=
  "I encountered an error connecting to the bank systems.".toList

/-- Result of one endpoint call: the HTTP status (`JSONResponse` defaults
to 200), the JSON body as key/value pairs in construction order, and an
instrumentation flag recording whether `app_graph.invoke` was entered. -/
structure EndpointResult where
  status : Nat
  body : List (List Char × JVal)
  graphCalled : Bool
deriving DecidableEq

/-- `chat_endpoint` from `app.py`.  `graph` is the `app_graph.invoke`
oracle: it receives the stripped user message and either raises
(`Except.error`, carrying the exception text) or returns the message list
of the final state. -/
def chat_endpoint (flow : List (List Char × FlowNode))
    (graph : List Char → Except (List Char) (List (List Char)))
    (message : List Char) (current_step_id : Option (List Char)) :
    EndpointResult :=
  let user_msg := pyStrip message
  let stepNode : Option (List Char × FlowNode) :=
    match current_step_id with
    | none => none
    | some sid =>
      if sid = [] then none else (flow.lookup sid).map (fun n => (sid, n))
  match stepNode with
  | some (sid, node) =>
    if sid = ("agent_handover".toList) then
      ⟨200, [(KEY_RESPONSE, JVal.str node.message), (KEY_OPTIONS, JVal.options []),
             (KEY_NEXT, JVal.null)], false⟩
    else
      ⟨200, [(KEY_RESPONSE, JVal.str node.message),
             (KEY_OPTIONS, JVal.options node.options), (KEY_NEXT, JVal.null)], false⟩
  | none =>
    if user_msg = [] then ⟨200, [(KEY_RESPONSE, JVal.str RETRY_MSG)], false⟩
    else
      match graph user_msg with
      | .ok msgs =>
        ⟨200, [(KEY_RESPONSE, JVal.str (msgs.getLastD EMPTY_RESULT_MSG)),
               (KEY_OPTIONS, JVal.options []), (KEY_NEXT, JVal.null)], true⟩
      | .error _ => ⟨200, [(KEY_RESPONSE, JVal.str GENERIC_ERR_MSG)], true⟩

/-! ## Supporting theorems -/

theorem leadsWith_iff (pat : List Char) :
    ∀ l : List Char, leadsWith pat l = true ↔ ∃ t, l = pat ++ t := by
  induction pat with
  | nil =>
    intro l
    simp [leadsWith]
  | cons a as ih =>
    intro l
    cases l with
    | nil =>
      simp [leadsWith]
    | cons b bs =>
      simp only [leadsWith, Bool.and_eq_true, decide_eq_true_eq, ih bs]
      constructor
      · rintro ⟨rfl, t, rfl⟩
        exact ⟨t, rfl⟩
      · rintro ⟨t, ht⟩
        cases ht
        exact ⟨rfl, t, rfl⟩

theorem containsSeq_iff (pat : List Char) :
    ∀ l : List Char, containsSeq pat l = true ↔ ∃ u t, l = u ++ pat ++ t := by
  intro l
  induction l with
  | nil =>
    simp only [containsSeq, leadsWith_iff]
    constructor
    · rintro ⟨t, ht⟩
      exact ⟨[], t, ht⟩
    · rintro ⟨u, t, ht⟩
      rcases u with _ | ⟨c, u⟩
      · exact ⟨t, ht⟩
      · simp at ht
  | cons c rest ih =>
      simp only [containsSeq, Bool.or_eq_true, leadsWith_iff, ih]
      constructor
      · rintro (⟨t, ht⟩ | ⟨u, t, ht⟩)
        · exact ⟨[], t, ht⟩
        · exact ⟨c :: u, t, by simp [ht]⟩
      · rintro ⟨u, t, ht⟩
        rcases u with _ | ⟨c', u⟩
        · exact Or.inl ⟨t, ht⟩
        · right
          refine ⟨u, t, ?_⟩
          simpa using congrArg List.tail ht

theorem seekNoNL_iff (post : List Char) (hpost : post ≠ []) :
    ∀ t : List Char, seekNoNL post t = true ↔
      ∃ m w, t = m ++ post ++ w ∧ '\n' ∉ m := by
  intro t
  induction t with
  | nil =>
    simp only [seekNoNL, Bool.false_eq_true, false_iff]
    rintro ⟨m, w, ht, -⟩
    rcases post with _ | ⟨p, post⟩
    · exact hpost rfl
    · have := congrArg List.length ht
      simp [List.length_append] at this
      omega
  | cons c rest ih =>
    simp only [seekNoNL, Bool.or_eq_true, Bool.and_eq_true, decide_eq_true_eq,
      leadsWith_iff, ih]
    constructor
    · rintro (⟨t', ht⟩ | ⟨hc, m, w, ht, hm⟩)
      · exact ⟨[], t', by simpa using ht, by simp⟩
      · refine ⟨c :: m, w, by simp [ht], ?_⟩
        simp only [List.mem_cons, not_or]
        exact ⟨fun h => hc h.symm, hm⟩
    · rintro ⟨m, w, ht, hm⟩
      rcases m with _ | ⟨c', m⟩
      · exact Or.inl ⟨w, by simpa using ht⟩
      · rw [List.cons_append, List.cons_append] at ht
        injection ht with h1 h2
        subst h1
        simp only [List.mem_cons, not_or] at hm
        exact Or.inr ⟨fun h => hm.1 h.symm, m, w, h2, hm.2⟩

theorem gapScan_iff (pre post : List Char) (hpost : post ≠ []) :
    ∀ t : List Char, gapScan pre post t = true ↔
      ∃ u m w, t = u ++ pre ++ m ++ post ++ w ∧ '\n' ∉ m := by
  intro t
  induction t with
  | nil =>
    simp only [gapScan, Bool.false_eq_true, false_iff]
    rintro ⟨u, m, w, ht, -⟩
    rcases post with _ | ⟨p, post⟩
    · exact hpost rfl
    · have := congrArg List.length ht
      simp [List.length_append] at this
      omega
  | cons c rest ih =>
    simp only [gapScan, Bool.or_eq_true, Bool.and_eq_true, leadsWith_iff, ih]
    constructor
    · rintro (⟨⟨t', ht⟩, hseek⟩ | ⟨u, m, w, ht, hm⟩)
      · rw [ht, List.drop_left] at hseek
        rcases (seekNoNL_iff post hpost t').mp hseek with ⟨m, w, ht', hm⟩
        exact ⟨[], m, w, by simp [ht, ht'], hm⟩
      · exact ⟨c :: u, m, w, by simp [ht], hm⟩
    · rintro ⟨u, m, w, ht, hm⟩
      rcases u with _ | ⟨c', u⟩
      · refine Or.inl ⟨⟨m ++ post ++ w, by simpa using ht⟩, ?_⟩
        have hd : (c :: rest).drop pre.length = m ++ post ++ w := by
          rw [show c :: rest = pre ++ (m ++ post ++ w) by simpa using ht]
          exact List.drop_left pre _
        rw [hd]
        exact (seekNoNL_iff post hpost _).mpr ⟨m, w, rfl, hm⟩
      · rw [List.cons_append, List.cons_append, List.cons_append,
          List.cons_append] at ht
        injection ht with h1 h2
        subst h1
        exact Or.inr ⟨u, m, w, by simpa using h2, hm⟩

theorem pyStrip_subset (l : List Char) : pyStrip l ⊆ l := by
  intro c hc
  unfold pyStrip at hc
  rw [List.mem_reverse] at hc
  have hc2 := List.dropWhile_subset _ hc
  rw [List.mem_reverse] at hc2
  exact List.dropWhile_subset _ hc2

/-- Claim C3: the input sanitizer is a total function that strips the
control characters of `CONTROL_CHAR_RE`, trims, and truncates to
`MAX_INPUT_LEN` codepoints: every character of the output is a
non-control character, the output never exceeds `MAX_INPUT_LEN`, and a
non-string input yields the empty string. -/
theorem C3_sanitizer_contract (l : List Char) (c : Char)
    (hc : c ∈ sanitize_user_input (some l)) :
    isStrippedControl c = false ∧
      (sanitize_user_input (some l)).length ≤ MAX_INPUT_LEN ∧
      sanitize_user_input none = [] := by
  refine ⟨?_, ?_, rfl⟩
  · have h1 : c ∈ pyStrip (l.filter (fun c => !isStrippedControl c)) :=
      List.take_subset _ _ hc
    have h2 := pyStrip_subset _ h1
    simpa using List.of_mem_filter h2
  · simp only [sanitize_user_input, List.length_take]
    exact Nat.min_le_left _ _

/-- Witness for C3 at a concrete input containing the control character
`U+0001`. -/
theorem C3_sanitizer_contract_witness :
    isStrippedControl 'a' = false ∧
      (sanitize_user_input (some ("a\x01b".toList))).length ≤ MAX_INPUT_LEN ∧
      sanitize_user_input none = [] :=
  C3_sanitizer_contract ("a\x01b".toList) 'a' (by decide)

theorem redactScanF_nil : ∀ (f : Nat) (p : Bool), redactScanF f p [] = [] := by
  intro f p
  cases f <;> rfl

theorem redactScanF_cons_some (fuel : Nat) (prevW : Bool) (c : Char)
    (rest : List Char) {n : Nat}
    (h : (if prevW then none else matchPIIAt (c :: rest)) = some n) :
    redactScanF (fuel + 1) prevW (c :: rest) =
      REDACT_TOKEN ++ redactScanF fuel false ((c :: rest).drop n) := by
  simp only [redactScanF, h]

theorem redactScanF_cons_none (fuel : Nat) (prevW : Bool) (c : Char)
    (rest : List Char)
    (h : (if prevW then none else matchPIIAt (c :: rest)) = none) :
    redactScanF (fuel + 1) prevW (c :: rest) =
      c :: redactScanF fuel (isWordChar c) rest := by
  simp only [redactScanF, h]

theorem digitRun_le_length : ∀ l : List Char, digitRun l ≤ l.length := by
  intro l
  induction l with
  | nil => simp [digitRun]
  | cons c rest ih =>
    simp only [digitRun, List.length_cons]
    split
    · omega
    · omega

theorem digitRun_take_all : ∀ l : List Char, ∀ c ∈ l.take (digitRun l), c.isDigit = true := by
  intro l
  induction l with
  | nil => simp [digitRun]
  | cons c rest ih =>
    intro x hx
    simp only [digitRun] at hx
    by_cases hc : c.isDigit
    · rw [if_pos hc, List.take_succ_cons] at hx
      rcases List.mem_cons.mp hx with rfl | hx'
      · exact hc
      · exact ih x hx'
    · rw [if_neg hc] at hx
      simp at hx

theorem ssnShape_parts : ∀ l : List Char, ssnShape l = true →
    (∀ c ∈ l.take 11, dhChar c = true) ∧ 11 ≤ l.length ∧
      nonWordHead (l.drop 11) = true := by
  intro l h
  match l, h with
  | d1 :: d2 :: d3 :: h1 :: d4 :: d5 :: h2 :: d6 :: d7 :: d8 :: d9 :: rest, h =>
    simp only [ssnShape, Bool.and_eq_true, decide_eq_true_eq] at h
    obtain ⟨⟨⟨⟨⟨⟨⟨⟨⟨⟨⟨hd1, hd2⟩, hd3⟩, hh1⟩, hd4⟩, hd5⟩, hh2⟩, hd6⟩, hd7⟩, hd8⟩, hd9⟩, hnw⟩ := h
    refine ⟨?_, by simp, by simpa using hnw⟩
    intro c hc
    simp only [List.take_succ_cons, List.take_zero, List.mem_cons,
      List.not_mem_nil, or_false] at hc
    rcases hc with rfl | rfl | rfl | rfl | rfl | rfl | rfl | rfl | rfl | rfl | rfl <;>
      simp [dhChar, hd1, hd2, hd3, hh1, hd4, hd5, hh2, hd6, hd7, hd8, hd9]

theorem ssnShape_head : ∀ (c : Char) (rest : List Char),
    ssnShape (c :: rest) = true → c.isDigit = true := by
  intro c rest h
  match rest, h with
  | d2 :: d3 :: h1 :: d4 :: d5 :: h2 :: d6 :: d7 :: d8 :: d9 :: rest', h =>
    simp only [ssnShape, Bool.and_eq_true] at h
    exact h.1.1.1.1.1.1.1.1.1.1.1

theorem matchPIIAt_spec : ∀ (l : List Char) (n : Nat), matchPIIAt l = some n →
    1 ≤ n ∧ n ≤ l.length ∧ ∀ c ∈ l.take n, dhChar c = true := by
  intro l n h
  simp only [matchPIIAt] at h
  split at h
  case isTrue h1 =>
    injection h with hn
    subst hn
    simp only [Bool.and_eq_true, decide_eq_true_eq] at h1
    refine ⟨by omega, digitRun_le_length l, ?_⟩
    intro c hc
    have := digitRun_take_all l c hc
    simp [dhChar, this]
  case isFalse h1 =>
    split at h
    case isTrue h2 =>
      injection h with hn
      subst hn
      have := ssnShape_parts l h2
      exact ⟨by omega, this.2.1, this.1⟩
    case isFalse h2 =>
      split at h
      case isTrue h3 =>
        injection h with hn
        subst hn
        simp only [Bool.and_eq_true, decide_eq_true_eq] at h3
        have h9 : digitRun l = 9 := h3.1
        refine ⟨by omega, h9 ▸ digitRun_le_length l, ?_⟩
        intro c hc
        rw [← h9] at hc
        have := digitRun_take_all l c hc
        simp [dhChar, this]
      case isFalse => exact absurd h (by simp)

theorem matchPIIAt_nonDigit : ∀ (c : Char) (rest : List Char), c.isDigit = false →
    matchPIIAt (c :: rest) = none := by
  intro c rest hc
  have hrun : digitRun (c :: rest) = 0 := by simp [digitRun, hc]
  have hssn : ssnShape (c :: rest) = false := by
    cases hs : ssnShape (c :: rest)
    · rfl
    · exact absurd (ssnShape_head c rest hs) (by simp [hc])
  simp [matchPIIAt, hrun, hssn]

theorem redactScanF_fuel : ∀ (f₁ : Nat) {f₂ : Nat} {p : Bool} {l : List Char},
    l.length ≤ f₁ → l.length ≤ f₂ → redactScanF f₁ p l = redactScanF f₂ p l := by
  intro f₁
  induction f₁ with
  | zero =>
    intro f₂ p l h1 h2
    have hl : l = [] := by
      cases l with
      | nil => rfl
      | cons c r => simp at h1
    subst hl
    rw [redactScanF_nil, redactScanF_nil]
  | succ f ih =>
    intro f₂ p l h1 h2
    cases l with
    | nil => rw [redactScanF_nil, redactScanF_nil]
    | cons c rest =>
      cases f₂ with
      | zero => simp at h2
      | succ f₂' =>
        cases hp : (if p then none else matchPIIAt (c :: rest)) with
        | none =>
          rw [redactScanF_cons_none f p c rest hp,
            redactScanF_cons_none f₂' p c rest hp]
          have hlen : rest.length ≤ f := by
            simp only [List.length_cons] at h1
            omega
          have hlen2 : rest.length ≤ f₂' := by
            simp only [List.length_cons] at h2
            omega
          rw [ih hlen hlen2]
        | some n =>
          rw [redactScanF_cons_some f p c rest hp,
            redactScanF_cons_some f₂' p c rest hp]
          have hn : 1 ≤ n := by
            have hm : matchPIIAt (c :: rest) = some n := by
              cases p
              · simpa using hp
              · simp at hp
            exact (matchPIIAt_spec _ n hm).1
          have hd : ((c :: rest).drop n).length ≤ f := by
            rw [List.length_drop]
            simp only [List.length_cons] at h1 ⊢
            omega
          have hd2 : ((c :: rest).drop n).length ≤ f₂' := by
            rw [List.length_drop]
            simp only [List.length_cons] at h2 ⊢
            omega
          rw [ih hd hd2]

theorem prevAfter_cons (p : Bool) (c : Char) (a : List Char) :
    prevAfter p (c :: a) = prevAfter (isWordChar c) a := by
  cases a with
  | nil => rfl
  | cons c' a' =>
    unfold prevAfter
    rw [List.getLast?_cons_cons]
    cases h : (c' :: a').getLast? with
    | none =>
      rw [List.getLast?_eq_none_iff] at h
      exact absurd h (by simp)
    | some x => rfl

theorem isWordChar_of_isDigit (c : Char) (h : c.isDigit = true) :
    isWordChar c = true := by
  simp [isWordChar, Char.isAlphanum, h]

theorem redactScanF_noDigit : ∀ (a : List Char) (f : Nat) (p : Bool)
    (tail : List Char), (∀ c ∈ a, c.isDigit = false) →
    a.length + tail.length ≤ f →
    redactScanF f p (a ++ tail) =
      a ++ redactScanF (f - a.length) (prevAfter p a) tail := by
  intro a
  induction a with
  | nil =>
    intro f p tail ha hf
    simp [prevAfter]
  | cons c a' ih =>
    intro f p tail ha hf
    cases f with
    | zero => simp at hf
    | succ fz =>
      have hc : c.isDigit = false := ha c (List.mem_cons_self c a')
      have hp : (if p then none else matchPIIAt (c :: (a' ++ tail))) = none := by
        cases p
        · simpa using matchPIIAt_nonDigit c (a' ++ tail) hc
        · simp
      rw [List.cons_append, redactScanF_cons_none fz p c (a' ++ tail) hp]
      have ha' : ∀ x ∈ a', x.isDigit = false := fun x hx => ha x (List.mem_cons_of_mem c hx)
      have hf' : a'.length + tail.length ≤ fz := by
        simp only [List.length_cons] at hf
        omega
      rw [ih fz (isWordChar c) tail ha' hf', prevAfter_cons]
      have hfe : fz + 1 - (c :: a').length = fz - a'.length := by
        simp only [List.length_cons]
        omega
      rw [hfe, List.cons_append]

theorem redactScanF_noDigit_id (b : List Char) (f : Nat) (p : Bool)
    (hb : ∀ c ∈ b, c.isDigit = false) (hf : b.length ≤ f) :
    redactScanF f p b = b := by
  have h := redactScanF_noDigit b f p [] hb (by simpa using hf)
  simpa [redactScanF_nil] using h

theorem digitRun_append_all : ∀ (d b : List Char),
    (∀ c ∈ d, c.isDigit = true) → nonWordHead b = true →
    digitRun (d ++ b) = d.length := by
  intro d
  induction d with
  | nil =>
    intro b hd hb
    cases b with
    | nil => rfl
    | cons c rest =>
      simp only [nonWordHead, Bool.not_eq_eq_eq_not, Bool.not_true] at hb
      have hc : c.isDigit = false := by
        cases hdig : c.isDigit
        · rfl
        · rw [isWordChar_of_isDigit c hdig] at hb
          exact absurd hb (by simp)
      simp [digitRun, hc]
  | cons c d' ih =>
    intro b hd hb
    have hc : c.isDigit = true := hd c (List.mem_cons_self c d')
    simp only [List.cons_append, digitRun, hc, if_true, List.length_cons]
    have hr := ih b (fun x hx => hd x (List.mem_cons_of_mem c hx)) hb
    simp only [List.append_eq]
    rw [hr]

theorem redactScan_digit_block (d b : List Char) (f : Nat)
    (hdlen : d.length = 16) (hdd : ∀ c ∈ d, c.isDigit = true)
    (hb : ∀ c ∈ b, c.isDigit = false) (hbh : nonWordHead b = true)
    (hf : d.length + b.length ≤ f) :
    redactScanF f false (d ++ b) = REDACT_TOKEN ++ b := by
  have hrun : digitRun (d ++ b) = 16 := by
    rw [digitRun_append_all d b hdd hbh, hdlen]
  have hdrop : (d ++ b).drop 16 = b := by
    rw [← hdlen]
    exact List.drop_left d b
  have hmatch : matchPIIAt (d ++ b) = some 16 := by
    simp only [matchPIIAt, hrun, hdrop, hbh]
    simp
  cases d with
  | nil => simp at hdlen
  | cons c d' =>
    cases f with
    | zero => simp at hf
    | succ fz =>
      have hp : (if false then none else matchPIIAt (c :: (d' ++ b))) = some 16 := by
        simpa using hmatch
      rw [List.cons_append, redactScanF_cons_some fz false c (d' ++ b) hp]
      rw [show (c :: (d' ++ b)).drop 16 = b from by rw [← List.cons_append]; exact hdrop]
      congr 1
      apply redactScanF_noDigit_id b fz false hb
      simp only [List.length_cons] at hf
      omega

/-- Claim C5 counterexample: on a draft holding a word-bounded 16-digit
sequence next to a second digit run, the post-processor also rewrites the
second run, so the surrounding text does not stay unchanged: the output is
not the claimed single-token result. -/
theorem C5_redaction_counterexample :
    redact_sensitive_info ("1234567890123456 999888777".toList) ≠
        ("[REDACTED] 999888777".toList) ∧
      redact_sensitive_info ("1234567890123456 999888777".toList) =
        ("[REDACTED] [REDACTED]".toList) := by
  constructor
  · decide
  · decide

/-- Claim C5 (amended): for a handler output `a ++ d ++ b` where `d` is a
word-bounded run of 16 digits and the surrounding text `a`, `b` contains
no digits (hence no other redactable sequence), the post-processor
replaces `d` by the fixed token and leaves every other character
unchanged. -/
theorem C5_redaction_token (a d b : List Char)
    (hdlen : d.length = 16) (hdd : ∀ c ∈ d, c.isDigit = true)
    (ha : ∀ c ∈ a, c.isDigit = false) (hb : ∀ c ∈ b, c.isDigit = false)
    (hal : prevAfter false a = false) (hbh : nonWordHead b = true) :
    redact_sensitive_info (a ++ d ++ b) = a ++ REDACT_TOKEN ++ b := by
  unfold redact_sensitive_info
  rw [List.append_assoc]
  rw [redactScanF_noDigit a ((a ++ (d ++ b)).length) false (d ++ b) ha
    (by simp [List.length_append])]
  rw [hal]
  rw [redactScan_digit_block d b _ hdlen hdd hb hbh
    (by simp only [List.length_append]; omega)]
  rw [← List.append_assoc]

/-- Witness for the amended C5 at a concrete card-number-like input. -/
theorem C5_redaction_token_witness :
    redact_sensitive_info ("card: ".toList ++ "1234567890123456".toList ++ " ok".toList) =
      "card: ".toList ++ REDACT_TOKEN ++ " ok".toList :=
  C5_redaction_token ("card: ".toList) ("1234567890123456".toList) (" ok".toList)
    (by decide) (by decide) (by decide) (by decide) (by decide) (by decide)

theorem redactRel_redactScanF : ∀ (f : Nat) (p : Bool) (l : List Char),
    l.length ≤ f → RedactRel l (redactScanF f p l) := by
  intro f
  induction f with
  | zero =>
    intro p l h
    have hl : l = [] := by
      cases l with
      | nil => rfl
      | cons c r => simp at h
    subst hl
    rw [redactScanF_nil]
    exact RedactRel.nil
  | succ fz ih =>
    intro p l h
    cases l with
    | nil =>
      rw [redactScanF_nil]
      exact RedactRel.nil
    | cons c rest =>
      cases hp : (if p then none else matchPIIAt (c :: rest)) with
      | none =>
        rw [redactScanF_cons_none fz p c rest hp]
        refine RedactRel.keep c (ih (isWordChar c) rest ?_)
        simp only [List.length_cons] at h
        omega
      | some n =>
        rw [redactScanF_cons_some fz p c rest hp]
        have hm : matchPIIAt (c :: rest) = some n := by
          cases p
          · simpa using hp
          · simp at hp
        obtain ⟨h1, h2, h3⟩ := matchPIIAt_spec _ n hm
        have hsplit : (c :: rest) = (c :: rest).take n ++ (c :: rest).drop n :=
          (List.take_append_drop n (c :: rest)).symm
        nth_rewrite 1 [hsplit]
        refine RedactRel.repl _ ?_ h3 (ih false _ ?_)
        · intro heq
          rcases List.take_eq_nil_iff.mp heq with h0 | h0
          · omega
          · simp at h0
        · rw [List.length_drop]
          simp only [List.length_cons] at h ⊢
          omega

theorem redactRel_split {l r : List Char} (h : RedactRel l r) :
    ∀ a b : List Char, l = a ++ b →
    (a = [] ∨ (∃ c, a.getLast? = some c ∧ dhChar c = false) ∨
      (∃ c, b.head? = some c ∧ dhChar c = false)) →
    ∃ ra rb, r = ra ++ rb ∧ RedactRel a ra ∧ RedactRel b rb := by
  induction h with
  | nil =>
    intro a b hab hcond
    obtain ⟨rfl, rfl⟩ := List.append_eq_nil.mp hab.symm
    exact ⟨[], [], rfl, RedactRel.nil, RedactRel.nil⟩
  | keep c hrel ih =>
    rename_i l' r'
    intro a b hab hcond
    cases a with
    | nil =>
      refine ⟨[], c :: r', rfl, RedactRel.nil, ?_⟩
      rw [show b = c :: l' by simpa using hab.symm]
      exact RedactRel.keep c hrel
    | cons a0 a' =>
      rw [List.cons_append] at hab
      injection hab with h1 h2
      subst h1
      have hcond' : a' = [] ∨ (∃ cc, a'.getLast? = some cc ∧ dhChar cc = false) ∨
          (∃ cc, b.head? = some cc ∧ dhChar cc = false) := by
        rcases hcond with h0 | ⟨cc, hcl, hcd⟩ | h3
        · exact absurd h0 (by simp)
        · rcases a' with _ | ⟨x, a''⟩
          · exact Or.inl rfl
          · rw [List.getLast?_cons_cons] at hcl
            exact Or.inr (Or.inl ⟨cc, hcl, hcd⟩)
        · exact Or.inr (Or.inr h3)
      obtain ⟨ra', rb, hr, hra, hrb⟩ := ih a' b h2 hcond'
      exact ⟨c :: ra', rb, by rw [hr, List.cons_append], RedactRel.keep c hra, hrb⟩
  | repl s hne hchars hrel ih =>
    rename_i l' r'
    intro a b hab hcond
    cases a with
    | nil =>
      refine ⟨[], REDACT_TOKEN ++ r', rfl, RedactRel.nil, ?_⟩
      rw [show b = s ++ l' by simpa using hab.symm]
      exact RedactRel.repl s hne hchars hrel
    | cons a0 a' =>
      rcases List.append_eq_append_iff.mp hab.symm with ⟨t, hB1, hB2⟩ | ⟨s2, hA1, hA2⟩
      case repl.cons.inr.intro.intro =>
        -- a0 :: a' = s ++ s2 and l' = s2 ++ b
        have hcond' : s2 = [] ∨ (∃ cc, s2.getLast? = some cc ∧ dhChar cc = false) ∨
            (∃ cc, b.head? = some cc ∧ dhChar cc = false) := by
          rcases hcond with h0 | ⟨cc, hcl, hcd⟩ | h3
          · exact absurd h0 (by simp)
          · rcases s2 with _ | ⟨x, s2'⟩
            · exact Or.inl rfl
            · have hla : (s ++ x :: s2').getLast? = (x :: s2').getLast? := by
                rw [List.getLast?_append]
                cases hy : (x :: s2').getLast? with
                | none =>
                  rw [List.getLast?_eq_none_iff] at hy
                  exact absurd hy (by simp)
                | some y => rfl
              rw [hA1, hla] at hcl
              exact Or.inr (Or.inl ⟨cc, hcl, hcd⟩)
          · exact Or.inr (Or.inr h3)
        obtain ⟨rs2, rb, hr, hrs, hrb⟩ := ih s2 b hA2 hcond'
        refine ⟨REDACT_TOKEN ++ rs2, rb, by rw [hr, List.append_assoc], ?_, hrb⟩
        rw [hA1]
        exact RedactRel.repl s hne hchars hrs
      case repl.cons.inl.intro.intro =>
        -- s = (a0 :: a') ++ t and b = t ++ l'
        rcases t with _ | ⟨t0, t'⟩
        · rw [List.append_nil] at hB1
          refine ⟨REDACT_TOKEN, r', rfl, ?_, by rw [show b = l' by simpa using hB2]; exact hrel⟩
          rw [← hB1]
          have := RedactRel.repl s hne hchars RedactRel.nil
          simpa using this
        · exfalso
          rcases hcond with h0 | ⟨cc, hcl, hcd⟩ | ⟨cc, hbh, hcd⟩
          · exact absurd h0 (by simp)
          · have hmem : cc ∈ (a0 :: a') := List.mem_of_mem_getLast? hcl
            have : cc ∈ s := by
              rw [hB1]
              exact List.mem_append_left _ hmem
            rw [hchars cc this] at hcd
            exact absurd hcd (by simp)
          · have hct : cc = t0 := by
              rw [hB2] at hbh
              exact (show t0 = cc by simpa using hbh).symm
            subst hct
            have : cc ∈ s := by
              rw [hB1]
              exact List.mem_append_right _ (by simp)
            rw [hchars cc this] at hcd
            exact absurd hcd (by simp)

theorem redactRel_keepAll {v y : List Char} (h : RedactRel v y)
    (hv : ∀ c ∈ v, dhChar c = false) : y = v := by
  induction h with
  | nil => rfl
  | keep c hrel ih =>
    rw [ih (fun x hx => hv x (List.mem_cons_of_mem c hx))]
  | repl s hne hchars hrel ih =>
    exfalso
    rcases s with _ | ⟨s0, s'⟩
    · exact hne rfl
    · have h1 := hchars s0 (List.mem_cons_self s0 s')
      have h2 := hv s0 (by simp)
      rw [h1] at h2
      exact absurd h2 (by simp)

theorem redactRel_noNL {m y : List Char} (h : RedactRel m y)
    (hm : '\n' ∉ m) : '\n' ∉ y := by
  induction h with
  | nil => exact hm
  | keep c hrel ih =>
    simp only [List.mem_cons, not_or] at hm ⊢
    exact ⟨hm.1, ih hm.2⟩
  | repl s hne hchars hrel ih =>
    simp only [List.mem_append, not_or] at hm ⊢
    exact ⟨by decide, ih hm.2⟩

theorem pyLower_eq_self_of_dh (c : Char) (h : dhChar c = true) : pyLower c = c := by
  simp only [dhChar, Bool.or_eq_true, decide_eq_true_eq] at h
  unfold pyLower
  split
  all_goals first
    | rfl
    | exact absurd h (by decide)

theorem pyLower_ne_nl (c : Char) (h : pyLower c = '\n') : c = '\n' := by
  revert h
  unfold pyLower
  split
  all_goals intro h
  all_goals first
    | exact h
    | exact absurd h (by decide)

theorem map_pyLower_nonDH {p₀ pat : List Char} (hp : p₀.map pyLower = pat)
    (hdh : ∀ c ∈ pat, dhChar c = false) : ∀ c ∈ p₀, dhChar c = false := by
  intro c hc
  cases hd : dhChar c
  · rfl
  · exfalso
    have hmem : pyLower c ∈ pat := hp ▸ List.mem_map_of_mem pyLower hc
    have hfalse := hdh _ hmem
    rw [pyLower_eq_self_of_dh c hd, hd] at hfalse
    exact absurd hfalse (by simp)

theorem map_pyLower_ne_nil {p₀ pat : List Char} (hp : p₀.map pyLower = pat)
    (hne : pat ≠ []) : p₀ ≠ [] := by
  intro h
  subst h
  exact hne hp.symm

theorem head_nonDH_cond (p₀ rest : List Char) (hne : p₀ ≠ [])
    (hdh : ∀ c ∈ p₀, dhChar c = false) :
    ∃ c, (p₀ ++ rest).head? = some c ∧ dhChar c = false := by
  rcases p₀ with _ | ⟨c, p'⟩
  · exact absurd rfl hne
  · exact ⟨c, by simp, hdh c (by simp)⟩

theorem last_nonDH_cond (p₀ : List Char) (hne : p₀ ≠ [])
    (hdh : ∀ c ∈ p₀, dhChar c = false) :
    ∃ c, p₀.getLast? = some c ∧ dhChar c = false :=
  ⟨p₀.getLast hne, List.getLast?_eq_getLast p₀ hne, hdh _ (List.getLast_mem hne)⟩

theorem containsSeq_lower_redact (pat : List Char) (l : List Char) (hne : pat ≠ [])
    (hdh : ∀ c ∈ pat, dhChar c = false)
    (h : containsSeq pat (lowerL l) = true) :
    containsSeq pat (lowerL (redact_sensitive_info l)) = true := by
  rcases (containsSeq_iff pat (lowerL l)).mp h with ⟨u, t, hut⟩
  simp only [lowerL] at hut
  obtain ⟨x1, l₂, hl1, hx1, hl₂⟩ := List.append_eq_map_iff.mp hut.symm
  obtain ⟨u₀, p₀, hx, hu₀, hp₀⟩ := List.append_eq_map_iff.mp hx1.symm
  have hpne : p₀ ≠ [] := map_pyLower_ne_nil hp₀ hne
  have hpdh : ∀ c ∈ p₀, dhChar c = false := map_pyLower_nonDH hp₀ hdh
  have hrel : RedactRel l (redact_sensitive_info l) :=
    redactRel_redactScanF l.length false l (le_refl _)
  have hld : l = u₀ ++ (p₀ ++ l₂) := by
    rw [hl1, hx, List.append_assoc]
  obtain ⟨ru, rb, hr1, hru, hrb⟩ := redactRel_split hrel u₀ (p₀ ++ l₂) hld
    (Or.inr (Or.inr (head_nonDH_cond p₀ l₂ hpne hpdh)))
  obtain ⟨rp, rl, hr2, hrp, hrl⟩ := redactRel_split hrb p₀ l₂ rfl
    (Or.inr (Or.inl (last_nonDH_cond p₀ hpne hpdh)))
  have hrpeq : rp = p₀ := redactRel_keepAll hrp hpdh
  refine (containsSeq_iff pat _).mpr ⟨lowerL ru, lowerL rl, ?_⟩
  rw [hr1, hr2, hrpeq]
  simp only [lowerL, List.map_append, List.append_assoc]
  rw [hp₀]

theorem gapScan_lower_redact (pre post : List Char) (l : List Char)
    (hprene : pre ≠ []) (hpostne : post ≠ [])
    (hpredh : ∀ c ∈ pre, dhChar c = false)
    (hpostdh : ∀ c ∈ post, dhChar c = false)
    (h : gapScan pre post (lowerL l) = true) :
    gapScan pre post (lowerL (redact_sensitive_info l)) = true := by
  rcases (gapScan_iff pre post hpostne (lowerL l)).mp h with ⟨u, m, w, hut, hm⟩
  simp only [lowerL] at hut
  obtain ⟨x1, w₀, hl1, hx1, hw₀⟩ := List.append_eq_map_iff.mp hut.symm
  obtain ⟨x2, c₀, hl2, hx2, hc₀⟩ := List.append_eq_map_iff.mp hx1.symm
  obtain ⟨x3, m₀, hl3, hx3, hm₀⟩ := List.append_eq_map_iff.mp hx2.symm
  obtain ⟨u₀, p₀, hl4, hu₀, hp₀⟩ := List.append_eq_map_iff.mp hx3.symm
  have hpne : p₀ ≠ [] := map_pyLower_ne_nil hp₀ hprene
  have hpdh : ∀ c ∈ p₀, dhChar c = false := map_pyLower_nonDH hp₀ hpredh
  have hcne : c₀ ≠ [] := map_pyLower_ne_nil hc₀ hpostne
  have hcdh : ∀ c ∈ c₀, dhChar c = false := map_pyLower_nonDH hc₀ hpostdh
  have hmnl : '\n' ∉ m₀ := by
    intro hmem
    have hmm : pyLower '\n' ∈ m := hm₀ ▸ List.mem_map_of_mem pyLower hmem
    rw [show pyLower '\n' = '\n' from rfl] at hmm
    exact hm hmm
  have hrel : RedactRel l (redact_sensitive_info l) :=
    redactRel_redactScanF l.length false l (le_refl _)
  have hld : l = u₀ ++ (p₀ ++ (m₀ ++ (c₀ ++ w₀))) := by
    rw [hl1, hl2, hl3, hl4]
    simp [List.append_assoc]
  obtain ⟨ru, r1, hr1, hru, hrel1⟩ := redactRel_split hrel u₀ _ hld
    (Or.inr (Or.inr (head_nonDH_cond p₀ _ hpne hpdh)))
  obtain ⟨rp, r2, hr2, hrp, hrel2⟩ := redactRel_split hrel1 p₀ _ rfl
    (Or.inr (Or.inl (last_nonDH_cond p₀ hpne hpdh)))
  obtain ⟨rm, r3, hr3, hrm, hrel3⟩ := redactRel_split hrel2 m₀ _ rfl
    (Or.inr (Or.inr (head_nonDH_cond c₀ _ hcne hcdh)))
  obtain ⟨rc, rw₀, hr4, hrc, hrw⟩ := redactRel_split hrel3 c₀ _ rfl
    (Or.inr (Or.inl (last_nonDH_cond c₀ hcne hcdh)))
  have hrpeq : rp = p₀ := redactRel_keepAll hrp hpdh
  have hrceq : rc = c₀ := redactRel_keepAll hrc hcdh
  have hrmnl : '\n' ∉ rm := redactRel_noNL hrm hmnl
  refine (gapScan_iff pre post hpostne _).mpr
    ⟨lowerL ru, lowerL rm, lowerL rw₀, ?_, ?_⟩
  · rw [hr1, hr2, hr3, hr4, hrpeq, hrceq]
    simp only [lowerL, List.map_append, List.append_assoc]
    rw [hp₀, hc₀]
  · intro hmem
    simp only [lowerL, List.mem_map] at hmem
    obtain ⟨x, hx, hxeq⟩ := hmem
    have hxn : x = '\n' := pyLower_ne_nl x hxeq
    subst hxn
    exact hrmnl hx

theorem prohibitedCheck_redact (l : List Char) (h : prohibitedCheck l = true) :
    prohibitedCheck (redact_sensitive_info l) = true := by
  simp only [prohibitedCheck, Bool.or_eq_true] at h ⊢
  rcases h with (h | h) | h
  · exact Or.inl (Or.inl (containsSeq_lower_redact _ l (by decide) (by decide) h))
  · exact Or.inl (Or.inr (containsSeq_lower_redact _ l (by decide) (by decide) h))
  · exact Or.inr
      (gapScan_lower_redact _ _ l (by decide) (by decide) (by decide) (by decide) h)

theorem post_process_prohibited (draft : List Char)
    (h : prohibitedCheck draft = true) :
    post_process_response draft = PROF_FALLBACK := by
  simp only [post_process_response]
  rw [if_pos (prohibitedCheck_redact draft h)]

/-- Claim C4: a handler draft matching a prohibited-disclosure phrase is
discarded entirely — the post-processed response equals the fixed
safe-fallback message whatever else the draft contains — and this
post-processing runs on both the account-handler and the info-handler
output before the response is returned. -/
theorem C4_prohibited_discard (accountAgent infoAgent : List (List Char) → List Char)
    (messages : List (List Char))
    (ha : prohibitedCheck (accountAgent (ACCOUNT_PROMPT :: messages)) = true)
    (hi : prohibitedCheck (infoAgent (INFO_PROMPT :: messages)) = true) :
    call_account accountAgent messages = [PROF_FALLBACK] ∧
      call_info infoAgent messages = [PROF_FALLBACK] := by
  unfold call_account call_info
  rw [post_process_prohibited _ ha, post_process_prohibited _ hi]
  exact ⟨rfl, rfl⟩

/-- Witness for C4 at concrete prohibited drafts (one per handler). -/
theorem C4_prohibited_discard_witness :
    call_account (fun _ => ("Sure, I will open the database 4111111111111111 now".toList)) [] =
        [PROF_FALLBACK] ∧
      call_info (fun _ => ("Step 1: delete records from the ledger".toList)) [] =
        [PROF_FALLBACK] :=
  C4_prohibited_discard _ _ [] (by decide) (by decide)

/-- Claim C2: a non-empty input that passes the injection/off-topic
pre-check and whose lowercased text contains an account keyword routes to
ACCOUNT; the result holds for every classifier oracle and the classifier
branch is never entered. -/
theorem C2_account_keyword_route (classifier : Except (List Char) (List Char))
    (messages : List (List Char)) (m : List Char)
    (hm : messages.getLast? = some m)
    (h0 : sanitize_user_input (some m) ≠ [])
    (h1 : detect_prompt_injection (sanitize_user_input (some m)) = false)
    (h2 : OFF_TOPIC_KEYWORDS.any
      (fun k => containsSeq k (lowerL (sanitize_user_input (some m)))) = false)
    (h3 : account_keywords.any
      (fun k => containsSeq k (lowerL (sanitize_user_input (some m)))) = true) :
    supervisor_node classifier messages = some ⟨ACCOUNT_DEST, [], false⟩ := by
  simp only [supervisor_node, hm]
  rw [if_neg h0, if_neg (by simp [h1, h2]), if_pos h3]

/-- Witness for C2 at the input "what is my balance". -/
theorem C2_account_keyword_route_witness :
    supervisor_node (Except.error []) [("what is my balance".toList)] =
      some ⟨ACCOUNT_DEST, [], false⟩ :=
  C2_account_keyword_route (Except.error []) _ ("what is my balance".toList)
    (by decide) (by decide) (by decide) (by decide) (by decide)

/-- Claim C6: when the input reaches the LLM-router stage and the
classifier either raises or returns text whose stripped upper-casing does
not contain "ACCOUNT", the supervisor returns INFO (never ACCOUNT) and the
failure is absorbed: the node still returns a routing decision. -/
theorem C6_classifier_failure_info (classifier : Except (List Char) (List Char))
    (messages : List (List Char)) (m : List Char)
    (hm : messages.getLast? = some m)
    (h0 : sanitize_user_input (some m) ≠ [])
    (h1 : detect_prompt_injection (sanitize_user_input (some m)) = false)
    (h2 : OFF_TOPIC_KEYWORDS.any
      (fun k => containsSeq k (lowerL (sanitize_user_input (some m)))) = false)
    (h3 : account_keywords.any
      (fun k => containsSeq k (lowerL (sanitize_user_input (some m)))) = false)
    (hfail : ∀ t, classifier = .ok t →
      containsSeq ACCOUNT_DEST (upperL (pyStrip t)) = false) :
    supervisor_node classifier messages = some ⟨INFO_DEST, [], true⟩ := by
  cases classifier with
  | ok t =>
    simp only [supervisor_node, hm]
    rw [if_neg h0, if_neg (by simp [h1, h2]), if_neg (by simp [h3]),
      if_neg (by simp [hfail t rfl])]
  | error e =>
    simp only [supervisor_node, hm]
    rw [if_neg h0, if_neg (by simp [h1, h2]), if_neg (by simp [h3]),
      if_neg (by decide)]

/-- Witness for C6: the classifier raises on the input "hello". -/
theorem C6_classifier_failure_info_witness :
    supervisor_node (Except.error ("timeout".toList)) [("hello".toList)] =
      some ⟨INFO_DEST, [], true⟩ :=
  C6_classifier_failure_info (Except.error ("timeout".toList)) _ ("hello".toList)
    (by decide) (by decide) (by decide) (by decide) (by decide)
    (fun t ht => Except.noConfusion ht)

/-- Claim C9: for every state with a non-empty message list the supervisor
returns a destination in the set containing exactly ACCOUNT and INFO, the
conditional-edge map sends that destination to one of the two agent
nodes, and that node's only successor is END: there is no BLOCK or
refusal terminal in the compiled graph. -/
theorem C9_destination_set (classifier : Except (List Char) (List Char))
    (messages : List (List Char)) (h : messages ≠ []) :
    ∃ res, supervisor_node classifier messages = some res ∧
      (res.next = ACCOUNT_DEST ∨ res.next = INFO_DEST) ∧
      ∃ nd, conditional_edge_targets.lookup res.next = some nd ∧
        (nd = GNode.account_bot ∨ nd = GNode.info_bot) ∧
        node_successor nd = some GNode.END := by
  obtain ⟨m, hm⟩ : ∃ m, messages.getLast? = some m :=
    ⟨messages.getLast h, List.getLast?_eq_getLast messages h⟩
  simp only [supervisor_node, hm]
  split
  · exact ⟨⟨INFO_DEST, [], false⟩, rfl, Or.inr rfl, GNode.info_bot,
      by decide, Or.inr rfl, rfl⟩
  · split
    · exact ⟨⟨INFO_DEST, [fallback_block_msg], false⟩, rfl, Or.inr rfl,
        GNode.info_bot, by decide, Or.inr rfl, rfl⟩
    · split
      · exact ⟨⟨ACCOUNT_DEST, [], false⟩, rfl, Or.inl rfl, GNode.account_bot,
          by decide, Or.inl rfl, rfl⟩
      · split
        · exact ⟨⟨ACCOUNT_DEST, [], true⟩, rfl, Or.inl rfl, GNode.account_bot,
            by decide, Or.inl rfl, rfl⟩
        · exact ⟨⟨INFO_DEST, [], true⟩, rfl, Or.inr rfl, GNode.info_bot,
            by decide, Or.inr rfl, rfl⟩

/-- Witness for C9 at the input "hi". -/
theorem C9_destination_set_witness :
    ∃ res, supervisor_node (Except.error []) [("hi".toList)] = some res ∧
      (res.next = ACCOUNT_DEST ∨ res.next = INFO_DEST) ∧
      ∃ nd, conditional_edge_targets.lookup res.next = some nd ∧
        (nd = GNode.account_bot ∨ nd = GNode.info_bot) ∧
        node_successor nd = some GNode.END :=
  C9_destination_set (Except.error []) [("hi".toList)] (by decide)

/-- Claim C1 (code evaluation at the failing input): on the off-topic
input "tell me a joke" the supervisor appends the fixed compliance
fallback but routes to INFO, so the graph invokes the info-handler agent
and the final message is the post-processed agent draft — not the fixed
refusal — while the external classifier is indeed not invoked. -/
theorem C1_blocked_input_reaches_handler :
    run_app_graph (Except.ok ("OFF_TOPIC".toList))
        (fun _ => "ACCOUNT DRAFT".toList)
        (fun _ => "Why did the chicken cross the road?".toList)
        [("tell me a joke".toList)] =
      some ⟨INFO_DEST, GNode.info_bot,
        "Why did the chicken cross the road?".toList, false⟩ ∧
      "Why did the chicken cross the road?".toList ≠ fallback_block_msg := by
  decide

/-- Claim C7: an empty or whitespace-only message (with no scripted-flow
step active) gets the fixed retry prompt, the graph — hence classifier and
handlers — is not invoked, and on the brain side an empty sanitized input
routes to INFO without entering the classifier branch, never to ACCOUNT. -/
theorem C7_empty_message (flow : List (List Char × FlowNode))
    (graph : List Char → Except (List Char) (List (List Char)))
    (message : List Char) (hws : pyStrip message = [])
    (classifier : Except (List Char) (List Char))
    (msgs : List (List Char)) (m : List Char)
    (hm : msgs.getLast? = some m) (hsan : sanitize_user_input (some m) = []) :
    chat_endpoint flow graph message none =
        ⟨200, [(KEY_RESPONSE, JVal.str RETRY_MSG)], false⟩ ∧
      supervisor_node classifier msgs = some ⟨INFO_DEST, [], false⟩ := by
  constructor
  · simp only [chat_endpoint, hws]
    rw [if_pos trivial]
  · simp only [supervisor_node, hm]
    rw [if_pos hsan]

/-- Witness for C7 at the whitespace-only message "   ". -/
theorem C7_empty_message_witness :
    chat_endpoint [] (fun _ => Except.error []) ("   ".toList) none =
        ⟨200, [(KEY_RESPONSE, JVal.str RETRY_MSG)], false⟩ ∧
      supervisor_node (Except.error []) [("  ".toList)] =
        some ⟨INFO_DEST, [], false⟩ :=
  C7_empty_message [] (fun _ => Except.error []) ("   ".toList) (by decide)
    (Except.error []) [("  ".toList)] ("  ".toList) (by decide) (by decide)

/-- Claim C8 counterexample: when the graph raises, the endpoint's body
has no "error" key and the status is 200, not the claimed
`(error: string, status 500)` shape. -/
theorem C8_failure_shape_counterexample :
    (chat_endpoint []
        (fun _ => Except.error ("ZeroDivisionError: division by zero".toList))
        ("hello".toList) none).status ≠ 500 ∧
      (chat_endpoint []
        (fun _ => Except.error ("ZeroDivisionError: division by zero".toList))
        ("hello".toList) none).body.lookup KEY_ERROR = none := by
  decide

/-- Claim C8 (amended): on an unhandled failure inside the try block the
endpoint returns HTTP 200 with the single JSON field "response" holding
the fixed generic unavailability message, independent of the exception
text `e` — the raw exception never reaches the body. -/
theorem C8_failure_generic_response (flow : List (List Char × FlowNode))
    (e message : List Char) (hmsg : pyStrip message ≠ []) :
    chat_endpoint flow (fun _ => Except.error e) message none =
      ⟨200, [(KEY_RESPONSE, JVal.str GENERIC_ERR_MSG)], true⟩ := by
  simp only [chat_endpoint]
  rw [if_neg hmsg]

/-- Witness for the amended C8 at a concrete message and exception. -/
theorem C8_failure_generic_response_witness :
    chat_endpoint [] (fun _ => Except.error ("boom".toList)) ("hello".toList) none =
      ⟨200, [(KEY_RESPONSE, JVal.str GENERIC_ERR_MSG)], true⟩ :=
  C8_failure_generic_response [] ("boom".toList) ("hello".toList) (by decide)

theorem txn_loop_eq (rows : List TxnRow) : ∀ acc : List String,
    rows.foldl (fun acc r => if r.user_id = demo_user then acc ++ [fmtTxn r] else acc) acc =
      acc ++ (rows.filter (fun r => decide (r.user_id = demo_user))).map fmtTxn := by
  induction rows with
  | nil =>
    intro acc
    simp
  | cons r rows ih =>
    intro acc
    simp only [List.foldl_cons, List.filter_cons]
    by_cases h : r.user_id = demo_user
    · rw [if_pos h, ih (acc ++ [fmtTxn r])]
      simp [h, List.append_assoc]
    · rw [if_neg h, ih acc]
      simp [h]

/-- Claim C10: the transaction tool returns the fixed one-element error
list when the file is missing; otherwise it returns at most the last 5
entries, in file order, of the rows formatted for the hard-coded user
`user_101` — the result is a suffix of the full filtered list. -/
theorem C10_transactions (rows : List TxnRow) :
    get_my_transactions none = ["Error: data/transactions.csv not found"] ∧
      (get_my_transactions (some rows)).length ≤ 5 ∧
      (get_my_transactions (some rows)) <:+
        ((rows.filter (fun r => decide (r.user_id = demo_user))).map fmtTxn) := by
  refine ⟨rfl, ?_, ?_⟩
  · simp only [get_my_transactions, lastFive]
    rw [txn_loop_eq rows []]
    simp only [List.nil_append]
    rw [List.length_drop]
    omega
  · simp only [get_my_transactions, lastFive]
    rw [txn_loop_eq rows []]
    simp only [List.nil_append]
    exact List.drop_suffix _ _
